import Mathlib

/-
Verification of the VMATree interval-tracking data model
(src/src/hotspot/share/nmt/vmatree.hpp) against its specification.

The value types (Metadata, IntervalState, IntervalChange, SingleDiff,
SummaryDiff, AddressComparator) are translated directly from the header.
The mutating operation `register_mapping` is declared in the header but its
body lives in a translation unit that is not part of the sources at hand,
so it is modelled from the specification (section 4.3: the five-step
"apply state to range" algorithm over an ordered map).  The ordered map
(a treap in the original, declared in nmtTreap.hpp) is modelled as an
association list sorted strictly by key, which realises exactly the
ordered-map contract the specification gives in section 4.1.
-/

namespace VMATree

/-- Bit width of the C++ `size_t` on the 64-bit targets of this code.  The
wrappers `reserve_mapping`/`commit_mapping`/`release_mapping` compute
`from + sz` in `size_t` arithmetic, i.e. modulo `2 ^ wordBits`. -/
def wordBits : Nat := 64

/-- Modulus of `size_t` arithmetic. -/
def wordMax : Nat := 2 ^ wordBits

/-- Embedding of `VMATree::position` (`using position = size_t`): an unsigned
integer byte address. -/
abbrev position := Nat

/-- Modelled from the spec: `NativeCallStackStorage::StackIndex` (declared in
nmtNativeCallStackStorage.hpp, which is not among the sources) is an opaque,
copyable, equality-comparable handle into the external call-stack interning
table.  It is modelled as a natural number handle. -/
abbrev StackIndex := Nat

/-- Modelled from the spec: the value produced by the default constructor
`StackIndex()` — a fixed distinguished handle. -/
def StackIndex.mkDefault : StackIndex := 0

/-- Modelled from the spec: `NativeCallStackStorage::StackIndex::equals`,
equality comparison of two opaque handles. -/
def StackIndex.equals (a b : StackIndex) : Bool := a == b

/-- Modelled from the spec: the number of memory categories
(`mt_number_of_types`, declared outside the sources at hand).  The claims do
not depend on the exact count, only on it being a fixed positive constant. -/
def mt_number_of_types : Nat := 28

/-- Embedding of `MEMFLAGS`, a `uint8_t`-backed enumeration of category tags;
modelled as the underlying numeric value. -/
abbrev MEMFLAGS := Nat

/-- Modelled from the spec: the "none" category tag `mtNone`, the last
enumerator before `mt_number_of_types`. -/
def mtNone : MEMFLAGS := mt_number_of_types - 1

/-- Embedding of `enum class StateType : uint8_t { Reserved, Committed,
Released }`. -/
inductive StateType where
  | Reserved
  | Committed
  | Released
deriving DecidableEq

/-- Numeric value of a `StateType` enumerator (`Reserved = 0`,
`Committed = 1`, `Released = 2`). -/
def StateType.toByte : StateType → Nat
  | .Reserved => 0
  | .Committed => 1
  | .Released => 2

/-- Embedding of `static_cast<StateType>` on a byte.  Only the bytes 0, 1, 2
are ever stored by the code. -/
def StateType.ofByte (b : Nat) : StateType :=
  match b with
  | 0 => .Reserved
  | 1 => .Committed
  | _ => .Released

/-- Embedding of `VMATree::Metadata`: a call-stack handle plus a category
flag. -/
structure Metadata where
  stack_idx : StackIndex
  flag : MEMFLAGS
deriving DecidableEq

/-- Embedding of the default constructor `Metadata() : stack_idx(),
flag(mtNone)`. -/
def Metadata.mkDefault : Metadata :=
  { stack_idx := StackIndex.mkDefault, flag := mtNone }

/-- Embedding of `Metadata::equals`: both the flag and the stack index must
compare equal. -/
def Metadata.equals (a b : Metadata) : Bool :=
  a.flag == b.flag && StackIndex.equals a.stack_idx b.stack_idx

/-- Embedding of `VMATree::IntervalState`: the state type and the flag are
packed as two bytes `type_flag[0]` and `type_flag[1]`, next to the stack
index. -/
structure IntervalState where
  type_flag0 : Nat
  type_flag1 : Nat
  sidx : StackIndex
deriving DecidableEq

/-- Embedding of the default constructor `IntervalState() : type_flag{0,0},
sidx()`. -/
def IntervalState.mkEmpty : IntervalState :=
  { type_flag0 := 0, type_flag1 := 0, sidx := StackIndex.mkDefault }

/-- Embedding of `IntervalState(StateType type, Metadata data)`: stores
`static_cast<uint8_t>(type)` and `static_cast<uint8_t>(data.flag)` (the
byte cast is `% 256`) and copies the stack index. -/
def IntervalState.make (type : StateType) (data : Metadata) : IntervalState :=
  { type_flag0 := type.toByte, type_flag1 := data.flag % 256,
    sidx := data.stack_idx }

/-- Embedding of `IntervalState::type()`. -/
def IntervalState.type (s : IntervalState) : StateType :=
  StateType.ofByte s.type_flag0

/-- Embedding of `IntervalState::flag()`. -/
def IntervalState.flag (s : IntervalState) : MEMFLAGS :=
  s.type_flag1

/-- Embedding of `IntervalState::metadata()`: rebuilds a `Metadata` from the
stored stack index and flag byte. -/
def IntervalState.metadata (s : IntervalState) : Metadata :=
  { stack_idx := s.sidx, flag := s.flag }

/-- Embedding of `VMATree::IntervalChange`: the state just left of a boundary
(`in`) and the state at and right of it (`out`). -/
structure IntervalChange where
  «in» : IntervalState
  out : IntervalState
deriving DecidableEq

/-- Embedding of `IntervalChange::is_noop`: the change carries no
information when both sides are `Released`, or when both sides have the same
type and equal metadata. -/
def IntervalChange.is_noop (c : IntervalChange) : Bool :=
  (c.«in».type == StateType.Released && c.out.type == StateType.Released) ||
  (c.«in».type == c.out.type && Metadata.equals c.«in».metadata c.out.metadata)

/-- Embedding of `VMATree::AddressComparator::cmp`.  The result is wrapped in
`Option`: `none` stands for the `ShouldNotReachHere()` branch after the three
comparisons. -/
def AddressComparator.cmp (a b : Nat) : Option Int :=
  if a < b then some (-1)
  else if a == b then some 0
  else if a > b then some 1
  else none

/-- Embedding of `VMATree::SingleDiff`: signed reserve/commit byte deltas of
one category. -/
structure SingleDiff where
  reserve : Int
  commit : Int
deriving DecidableEq

/-- Embedding of `VMATree::SummaryDiff`: one `SingleDiff` per category.  The
C array `SingleDiff flag[mt_number_of_types]` is modelled as a list indexed
by the category value. -/
structure SummaryDiff where
  flag : List SingleDiff
deriving DecidableEq

/-- Embedding of the constructor `SummaryDiff()`: the loop assigns
`SingleDiff{0, 0}` to every slot. -/
def SummaryDiff.new : SummaryDiff :=
  { flag := List.replicate mt_number_of_types { reserve := 0, commit := 0 } }

/-- Modelled from the spec: the ordered map (`TreapCHeap<position,
IntervalChange, AddressComparator>`, declared in nmtTreap.hpp, not among the
sources) is modelled by its in-order contents — an association list of
boundary nodes kept sorted strictly by position. -/
abbrev Tree := List (Nat × IntervalChange)

/-- Modelled from the spec: exact-key lookup in the ordered map. -/
def lookup : Tree → Nat → Option IntervalChange
  | [], _ => none
  | (k, c) :: tl, p => if k = p then some c else lookup tl p

/-- Out-state of the last node of an in-order node list, or the supplied
default when the list is empty.  `lastOut s l` applied to the nodes with key
at most `p` realises the ordered-map operation `find_closest_leq`. -/
def lastOut : IntervalState → Tree → IntervalState
  | s, [] => s
  | _, (_, c) :: tl => lastOut c.out tl

/-- Modelled from the spec (invariant rule 3): the state implicitly in force
outside every tracked boundary — `Released` with the empty metadata. -/
def relEmpty : IntervalState := IntervalState.make .Released Metadata.mkDefault

/-- Modelled from the spec: the state prevailing at position `p` — the `out`
state of the closest node at or before `p`, or `relEmpty` when no such node
exists. -/
def prevailingAt (t : Tree) (p : Nat) : IntervalState :=
  lastOut relEmpty (t.filter fun q => decide (q.1 ≤ p))

/-- Modelled from the spec (step 3): the boundary nodes strictly inside the
half-open range `[A, B)` — these are removed by an apply call. -/
def interior (t : Tree) (A B : Nat) : Tree :=
  t.filter fun q => decide (A < q.1) && decide (q.1 < B)

/-- Modelled from the spec (step 4): the pre-existing state segments covering
`[cur, B)`, given the state `s` prevailing at `cur` and the interior boundary
nodes after `cur`.  Each entry is a byte length with the state in force. -/
def segmentsFrom : IntervalState → Nat → Nat → Tree → List (Nat × IntervalState)
  | s, cur, B, [] => [(B - cur, s)]
  | s, cur, B, (k, c) :: tl => (k - cur, s) :: segmentsFrom c.out k B tl

/-- Pointwise update of one slot of a category-indexed table; slots outside
the table are left alone (category values are always in range in the code). -/
def updateAt (f : SingleDiff → SingleDiff) : List SingleDiff → Nat → List SingleDiff
  | [], _ => []
  | x :: tl, 0 => f x :: tl
  | x :: tl, n + 1 => x :: updateAt f tl n

/-- Modelled from the spec (step 4 accounting rule): add `amount` bytes of
state `s` to the rollup — `Committed` counts towards both the reserve and the
commit counter of its category, `Reserved` only towards reserve, `Released`
towards neither. -/
def SummaryDiff.accum (d : SummaryDiff) (s : IntervalState) (amount : Int) : SummaryDiff :=
  match s.type with
  | .Released => d
  | .Reserved =>
    { flag := updateAt (fun x => { reserve := x.reserve + amount, commit := x.commit }) d.flag s.flag }
  | .Committed =>
    { flag := updateAt (fun x => { reserve := x.reserve + amount, commit := x.commit + amount }) d.flag s.flag }

/-- Modelled from the spec (step 4): subtract every destroyed or shrunk
segment from the rollup. -/
def subtractSegments : SummaryDiff → List (Nat × IntervalState) → SummaryDiff
  | d, [] => d
  | d, (len, s) :: tl => subtractSegments (d.accum s (-(len : Int))) tl

/-- Modelled from the spec (section 7): the error taxonomy of
`register_mapping`; `InvalidRange` reports `range_start >= range_end`. -/
inductive RegisterError where
  | InvalidRange
deriving DecidableEq

/-- Modelled from the spec: the metadata actually recorded for the target
state — the caller's attribution, unless the target state is `Released`, in
which case the attribution is discarded and the empty metadata is stored. -/
def storedMetadata (state : StateType) (metadata : Metadata) : Metadata :=
  match state with
  | .Released => Metadata.mkDefault
  | _ => metadata

/-- Modelled from the spec (step 1): the `in` state of the boundary node at
`range_start` — an existing node at that exact position keeps its `in`,
otherwise the node is created with the state previously prevailing there. -/
def nodeAIn (t : Tree) (A : Nat) : IntervalState :=
  match lookup t A with
  | some c => c.«in»
  | none => prevailingAt t A

/-- Modelled from the spec (steps 1, 2, 3 and 5): the tree after applying
target state `σ` to `[A, B)`.  Nodes strictly below `A` and strictly above
`B` survive unchanged; the interior is cleared; the boundary node at `A`
gets `out = σ` (keeping or inheriting its `in`), the one at `B` gets
`in = σ` and keeps the state that must resume after `B`; a boundary that has
become a no-op transition is dropped. -/
def applyTree (t : Tree) (A B : Nat) (σ : IntervalState) : Tree :=
  (t.filter fun q => decide (q.1 < A)) ++
  (if (IntervalChange.mk (nodeAIn t A) σ).is_noop then []
   else [(A, IntervalChange.mk (nodeAIn t A) σ)]) ++
  (if (IntervalChange.mk σ (prevailingAt t B)).is_noop then []
   else [(B, IntervalChange.mk σ (prevailingAt t B))]) ++
  (t.filter fun q => decide (B < q.1))

/-- Modelled from the spec (step 4): the rollup of applying `σ` to `[A, B)` —
every pre-existing segment portion inside the range is subtracted, then the
full range length is added under the target state's rule. -/
def applyDiff (t : Tree) (A B : Nat) (σ : IntervalState) : SummaryDiff :=
  (subtractSegments SummaryDiff.new
      (segmentsFrom (prevailingAt t A) A B (interior t A B))).accum σ ((B - A : Nat) : Int)

/-- Modelled from the spec (section 4.3): `VMATree::register_mapping`, whose
body is in a translation unit not among the sources at hand.  A call with
`range_start >= range_end` fails with `InvalidRange` and produces no diff and
no tree change; otherwise the tree is rewritten over `[A, B)` and the exact
per-category rollup is returned. -/
def register_mapping (t : Tree) (A B : Nat) (state : StateType) (metadata : Metadata) :
    Except RegisterError (SummaryDiff × Tree) :=
  if A < B then
    .ok (applyDiff t A B (IntervalState.make state (storedMetadata state metadata)),
         applyTree t A B (IntervalState.make state (storedMetadata state metadata)))
  else
    .error RegisterError.InvalidRange

/-- Embedding of `VMATree::reserve_mapping`: `register_mapping(from, from +
sz, Reserved, metadata)`, the sum taken in `size_t` arithmetic. -/
def reserve_mapping (t : Tree) (fr sz : Nat) (metadata : Metadata) :
    Except RegisterError (SummaryDiff × Tree) :=
  register_mapping t fr ((fr + sz) % wordMax) .Reserved metadata

/-- Embedding of `VMATree::commit_mapping`. -/
def commit_mapping (t : Tree) (fr sz : Nat) (metadata : Metadata) :
    Except RegisterError (SummaryDiff × Tree) :=
  register_mapping t fr ((fr + sz) % wordMax) .Committed metadata

/-- Embedding of `VMATree::release_mapping`: constructs an empty `Metadata`
and registers a `Released` mapping with it. -/
def release_mapping (t : Tree) (fr sz : Nat) :
    Except RegisterError (SummaryDiff × Tree) :=
  register_mapping t fr ((fr + sz) % wordMax) .Released Metadata.mkDefault

/-- Equality-in-effect of two interval states (the binary relation behind
`is_noop`): both `Released`, or same type with equal metadata. -/
def stateEquiv (a b : IntervalState) : Bool :=
  (a.type == StateType.Released && b.type == StateType.Released) ||
  (a.type == b.type && Metadata.equals a.metadata b.metadata)

/-- Chain consistency of a node list, starting from the state `s` in force
before the first node: every node's `in` agrees (up to `stateEquiv`) with the
state its left neighbour says is in force. -/
def chainFrom : IntervalState → Tree → Bool
  | _, [] => true
  | s, (_, c) :: tl => stateEquiv s c.«in» && chainFrom c.out tl

/-- Well-formedness of a tree state, per the spec's tree invariants: keys
strictly sorted (it is a search tree) and boundary states chain-consistent
starting from the implicit `Released` state (invariant rules 1 and 3). -/
def TreeWF (t : Tree) : Prop :=
  List.Pairwise (fun p q : Nat × IntervalChange => p.1 < q.1) t ∧
  chainFrom relEmpty t = true

/-- Concrete tree used to witness idempotence: the result of registering
`[0, 10)` as Reserved with stack index 1 and flag 2 on the empty tree. -/
def sampleTree : Tree :=
  [(0, ⟨⟨2, 27, 0⟩, ⟨0, 2, 1⟩⟩), (10, ⟨⟨0, 2, 1⟩, ⟨2, 27, 0⟩⟩)]

/-- Concrete rollup of that first registration: 10 bytes reserved in
category 2. -/
def sampleDiff : SummaryDiff :=
  ⟨[⟨0, 0⟩, ⟨0, 0⟩, ⟨10, 0⟩] ++ List.replicate 25 ⟨0, 0⟩⟩

/-- C1: `is_noop` returns true exactly when both sides are `Released`
(whatever their attributions — in particular for any two distinct ones), or
both sides have the same state type and equal metadata (same flag and same
stack index). -/
theorem is_noop_spec :
    (∀ c : IntervalChange,
       c.is_noop = true ↔
         ((c.«in».type = .Released ∧ c.out.type = .Released) ∨
          (c.«in».type = c.out.type ∧ c.«in».metadata.flag = c.out.metadata.flag ∧
           c.«in».metadata.stack_idx = c.out.metadata.stack_idx))) ∧
    (∀ m1 m2 : Metadata,
       (IntervalChange.mk (IntervalState.make .Released m1)
          (IntervalState.make .Released m2)).is_noop = true) := by
  constructor
  · intro c
    simp [IntervalChange.is_noop, Metadata.equals, StackIndex.equals]
  · intro m1 m2
    simp [IntervalChange.is_noop, IntervalState.make, IntervalState.type,
      StateType.toByte, StateType.ofByte]

/-- C5: `Metadata::equals` holds exactly when both the flags and the stack
indices agree. -/
theorem metadata_equals_iff (a b : Metadata) :
    Metadata.equals a b = true ↔ (a.flag = b.flag ∧ a.stack_idx = b.stack_idx) := by
  simp [Metadata.equals, StackIndex.equals]

/-- C6: a newly constructed `SummaryDiff` has zero reserve and commit deltas
in every category slot. -/
theorem summary_diff_new_zero (i : Nat) (h : i < mt_number_of_types) :
    SummaryDiff.new.flag[i]? = some { reserve := 0, commit := 0 } := by
  simp [SummaryDiff.new, List.getElem?_replicate, h]

/-- Witness for C6 at slot 0. -/
theorem summary_diff_new_zero_witness :
    SummaryDiff.new.flag[0]? = some { reserve := 0, commit := 0 } :=
  summary_diff_new_zero 0 (by norm_num [mt_number_of_types])

/-- C7: `AddressComparator::cmp` is the total three-way comparison: it
returns -1, 0 or 1 according to the order of its arguments, and never takes
the `ShouldNotReachHere` branch (the result is never `none`). -/
theorem address_comparator_cmp_total (a b : Nat) :
    AddressComparator.cmp a b =
      some (if a < b then (-1 : Int) else if a = b then 0 else 1) := by
  unfold AddressComparator.cmp
  by_cases h1 : a < b
  · simp [h1]
  · by_cases h2 : a = b
    · simp [h1, h2]
    · have h3 : b < a := lt_of_le_of_ne (not_lt.mp h1) fun h => h2 h.symm
      simp [h1, h2, h3]

/-- C8: a default-constructed `IntervalState` decodes byte 0 as
`StateType::Reserved` — not `Released` — and its flag is the `MEMFLAGS`
value 0. -/
theorem interval_state_default_reserved :
    IntervalState.mkEmpty.type = .Reserved ∧ IntervalState.mkEmpty.flag = 0 ∧
    (IntervalState.mkEmpty.type == StateType.Released) = false :=
  ⟨rfl, rfl, by decide⟩

/-- C9: the three convenience wrappers compute the range end as
`(from + sz) % 2^64` (`size_t` wraparound), and for `from = 2^64 - 1`,
`sz = 2` the end position passed to `register_mapping` is strictly below the
start position. -/
theorem wrapper_end_wraps :
    (∀ (t : Tree) (fr sz : Nat) (m : Metadata),
       reserve_mapping t fr sz m =
         register_mapping t fr ((fr + sz) % wordMax) .Reserved m) ∧
    (∀ (t : Tree) (fr sz : Nat) (m : Metadata),
       commit_mapping t fr sz m =
         register_mapping t fr ((fr + sz) % wordMax) .Committed m) ∧
    (∀ (t : Tree) (fr sz : Nat),
       release_mapping t fr sz =
         register_mapping t fr ((fr + sz) % wordMax) .Released Metadata.mkDefault) ∧
    ((wordMax - 1) + 2) % wordMax < wordMax - 1 := by
  refine ⟨fun _ _ _ _ => rfl, fun _ _ _ _ => rfl, fun _ _ _ => rfl, ?_⟩
  norm_num [wordMax, wordBits]

/-- C10: `IntervalState(type, data)` round-trips through the packed two-byte
representation: the stored type, flag and metadata read back equal to the
constructor arguments whenever the flag fits in one byte. -/
theorem interval_state_roundtrip (ty : StateType) (m : Metadata) (h : m.flag < 256) :
    (IntervalState.make ty m).type = ty ∧
    (IntervalState.make ty m).flag = m.flag ∧
    Metadata.equals ((IntervalState.make ty m).metadata) m = true := by
  refine ⟨?_, ?_, ?_⟩
  · cases ty <;> rfl
  · simp [IntervalState.make, IntervalState.flag, Nat.mod_eq_of_lt h]
  · simp [Metadata.equals, IntervalState.metadata, IntervalState.make,
      IntervalState.flag, StackIndex.equals, Nat.mod_eq_of_lt h]

/-- Witness for C10 at a committed state with flag 5 and stack index 7. -/
theorem interval_state_roundtrip_witness :
    (IntervalState.make .Committed ⟨7, 5⟩).type = .Committed ∧
    (IntervalState.make .Committed ⟨7, 5⟩).flag = (5 : Nat) ∧
    Metadata.equals ((IntervalState.make .Committed ⟨7, 5⟩).metadata) ⟨7, 5⟩ = true :=
  interval_state_roundtrip .Committed ⟨7, 5⟩ (by norm_num)

/-- C3: a call with `range_start >= range_end` fails with `InvalidRange`; no
diff and no new tree are produced. -/
theorem register_mapping_invalid_range (t : Tree) (A B : Nat)
    (state : StateType) (m : Metadata) (h : B ≤ A) :
    register_mapping t A B state m = .error RegisterError.InvalidRange := by
  unfold register_mapping
  rw [if_neg (not_lt.mpr h)]

/-- Witness for C3: the empty range `[50, 50)` is rejected. -/
theorem register_mapping_invalid_range_witness :
    register_mapping [] 50 50 .Reserved ⟨1, 2⟩ = .error RegisterError.InvalidRange :=
  register_mapping_invalid_range [] 50 50 .Reserved ⟨1, 2⟩ (by norm_num)

/-- C4: `release_mapping` forwards to `register_mapping` with the
default-constructed metadata (flag `mtNone`, default stack index), and a
`Released` registration ignores whatever attribution the caller supplies. -/
theorem release_mapping_discards_attribution :
    (∀ (t : Tree) (fr sz : Nat),
       release_mapping t fr sz =
         register_mapping t fr ((fr + sz) % wordMax) .Released Metadata.mkDefault) ∧
    Metadata.mkDefault.flag = mtNone ∧
    Metadata.mkDefault.stack_idx = StackIndex.mkDefault ∧
    (∀ (t : Tree) (A B : Nat) (m : Metadata),
       register_mapping t A B .Released m =
         register_mapping t A B .Released Metadata.mkDefault) :=
  ⟨fun _ _ _ => rfl, rfl, rfl, fun _ _ _ _ => rfl⟩

/-- Reflexivity of equality-in-effect of interval states. -/
theorem stateEquiv_refl (a : IntervalState) : stateEquiv a a = true := by
  simp [stateEquiv, Metadata.equals, StackIndex.equals]

/-- Symmetry of equality-in-effect of interval states. -/
theorem stateEquiv_symm {a b : IntervalState} (h : stateEquiv a b = true) :
    stateEquiv b a = true := by
  simp only [stateEquiv, Metadata.equals, StackIndex.equals, Bool.or_eq_true,
    Bool.and_eq_true, beq_iff_eq] at h ⊢
  tauto

/-- Transitivity of equality-in-effect of interval states. -/
theorem stateEquiv_trans {a b c : IntervalState} (h1 : stateEquiv a b = true)
    (h2 : stateEquiv b c = true) : stateEquiv a c = true := by
  simp only [stateEquiv, Metadata.equals, StackIndex.equals, Bool.or_eq_true,
    Bool.and_eq_true, beq_iff_eq] at h1 h2 ⊢
  rcases h1 with ⟨ha, hb⟩ | ⟨ht, hf, hs⟩
  · rcases h2 with ⟨_, hc⟩ | ⟨ht', _⟩
    · exact Or.inl ⟨ha, hc⟩
    · exact Or.inl ⟨ha, ht' ▸ hb⟩
  · rcases h2 with ⟨hb', hc⟩ | ⟨ht', hf', hs'⟩
    · exact Or.inl ⟨ht ▸ hb', hc⟩
    · exact Or.inr ⟨ht.trans ht', hf.trans hf', hs.trans hs'⟩

/-- The `is_noop` predicate is exactly equality-in-effect of the two sides. -/
theorem is_noop_eq_stateEquiv (i o : IntervalState) :
    (IntervalChange.mk i o).is_noop = stateEquiv i o := rfl

/-- Appending node lists composes `lastOut`. -/
theorem lastOut_append (s : IntervalState) (l1 l2 : Tree) :
    lastOut s (l1 ++ l2) = lastOut (lastOut s l1) l2 := by
  induction l1 generalizing s with
  | nil => rfl
  | cons hd tl ih =>
    obtain ⟨k, c⟩ := hd
    simp only [List.cons_append, lastOut]
    exact ih c.out

/-- A found node is a member of the list. -/
theorem lookup_some_mem :
    ∀ (l : Tree) (p : Nat) (c : IntervalChange), lookup l p = some c → (p, c) ∈ l := by
  intro l
  induction l with
  | nil => intro p c h; simp [lookup] at h
  | cons hd tl ih =>
    obtain ⟨k, c0⟩ := hd
    intro p c h
    rw [lookup] at h
    by_cases hk : k = p
    · subst hk
      rw [if_pos rfl] at h
      injection h with h
      subst h
      exact List.mem_cons_self _ _
    · rw [if_neg hk] at h
      exact List.mem_cons_of_mem _ (ih p c h)

/-- Lookup misses when no node carries the key. -/
theorem lookup_eq_none :
    ∀ (l : Tree) (p : Nat), (∀ q ∈ l, q.1 ≠ p) → lookup l p = none := by
  intro l
  induction l with
  | nil => intro p _; rfl
  | cons hd tl ih =>
    obtain ⟨k, c0⟩ := hd
    intro p h
    rw [lookup, if_neg (h (k, c0) (List.mem_cons_self _ _)), ih p]
    intro q hq
    exact h q (List.mem_cons_of_mem _ hq)

/-- Lookup misses imply every key differs. -/
theorem lookup_none_forall :
    ∀ (l : Tree) (p : Nat), lookup l p = none → ∀ q ∈ l, q.1 ≠ p := by
  intro l
  induction l with
  | nil => intro p _ q hq; simp at hq
  | cons hd tl ih =>
    obtain ⟨k, c0⟩ := hd
    intro p h q hq
    rw [lookup] at h
    by_cases hk : k = p
    · rw [if_pos hk] at h
      exact absurd h (by simp)
    · rw [if_neg hk] at h
      rcases List.mem_cons.mp hq with rfl | hq'
      · exact hk
      · exact ih p h q hq'

/-- Lookup across an append when the left part hits. -/
theorem lookup_append_some :
    ∀ (l1 : Tree) {l2 : Tree} {p : Nat} {c : IntervalChange},
      lookup l1 p = some c → lookup (l1 ++ l2) p = some c := by
  intro l1
  induction l1 with
  | nil => intro l2 p c h; simp [lookup] at h
  | cons hd tl ih =>
    obtain ⟨k, c0⟩ := hd
    intro l2 p c h
    rw [lookup] at h
    rw [List.cons_append, lookup]
    by_cases hk : k = p
    · rwa [if_pos hk] at h ⊢
    · rw [if_neg hk] at h ⊢
      exact ih h

/-- Lookup across an append when the left part misses. -/
theorem lookup_append_none :
    ∀ (l1 : Tree) {l2 : Tree} {p : Nat},
      lookup l1 p = none → lookup (l1 ++ l2) p = lookup l2 p := by
  intro l1
  induction l1 with
  | nil => intro l2 p _; rfl
  | cons hd tl ih =>
    obtain ⟨k, c0⟩ := hd
    intro l2 p h
    rw [lookup] at h
    rw [List.cons_append, lookup]
    by_cases hk : k = p
    · rw [if_pos hk] at h
      exact absurd h (by simp)
    · rw [if_neg hk] at h ⊢
      exact ih h

/-- Two slot updates at the same index compose. -/
theorem updateAt_comp (f g : SingleDiff → SingleDiff) :
    ∀ (l : List SingleDiff) (i : Nat),
      updateAt g (updateAt f l i) i = updateAt (fun x => g (f x)) l i := by
  intro l
  induction l with
  | nil => intro i; rfl
  | cons x tl ih =>
    intro i
    cases i with
    | zero => rfl
    | succ n => simp only [updateAt, ih]

/-- A pointwise-identity slot update is the identity. -/
theorem updateAt_id (f : SingleDiff → SingleDiff) (hf : ∀ x, f x = x) :
    ∀ (l : List SingleDiff) (i : Nat), updateAt f l i = l := by
  intro l
  induction l with
  | nil => intro i; rfl
  | cons x tl ih =>
    intro i
    cases i with
    | zero => simp only [updateAt, hf]
    | succ n => simp only [updateAt, ih]

/-- Subtracting then adding the same byte amount under equal-in-effect states
cancels out on the rollup. -/
theorem accum_cancel (d : SummaryDiff) (s σ : IntervalState) (x : Int)
    (h : stateEquiv s σ = true) : (d.accum s (-x)).accum σ x = d := by
  simp only [stateEquiv, Bool.or_eq_true, Bool.and_eq_true, beq_iff_eq,
    Metadata.equals, StackIndex.equals] at h
  rcases h with ⟨hs, hσ⟩ | ⟨ht, hf, _⟩
  · simp only [SummaryDiff.accum, hs, hσ]
  · have hf' : s.flag = σ.flag := hf
    cases hst : s.type with
    | Released =>
      have hσt : σ.type = .Released := ht.symm.trans hst
      simp only [SummaryDiff.accum, hst, hσt]
    | Reserved =>
      have hσt : σ.type = .Reserved := ht.symm.trans hst
      simp only [SummaryDiff.accum, hst, hσt, ← hf', updateAt_comp]
      conv_rhs => rw [show d = SummaryDiff.mk d.flag from rfl]
      congr 1
      apply updateAt_id
      intro y
      cases y
      simp only [SingleDiff.mk.injEq]
      constructor <;> ring_nf
    | Committed =>
      have hσt : σ.type = .Committed := ht.symm.trans hst
      simp only [SummaryDiff.accum, hst, hσt, ← hf', updateAt_comp]
      conv_rhs => rw [show d = SummaryDiff.mk d.flag from rfl]
      congr 1
      apply updateAt_id
      intro y
      cases y
      simp only [SingleDiff.mk.injEq]
      constructor <;> ring_nf

/-- In a sorted, chain-consistent node list, a node's `in` state is
equal-in-effect to the `out` state of its predecessor (or to the starting
state when there is none): stated via the nodes strictly left of the node's
key. -/
theorem chainFrom_lookup (A : Nat) (c : IntervalChange) :
    ∀ (t : Tree) (s : IntervalState),
      List.Pairwise (fun p q : Nat × IntervalChange => p.1 < q.1) t →
      chainFrom s t = true → lookup t A = some c →
      stateEquiv (lastOut s (t.filter fun q => decide (q.1 < A))) c.«in» = true := by
  intro t
  induction t with
  | nil => intro s _ _ hlk; simp [lookup] at hlk
  | cons hd tl ih =>
    obtain ⟨k, c0⟩ := hd
    intro s hpw hch hlk
    rw [List.pairwise_cons] at hpw
    rw [chainFrom, Bool.and_eq_true] at hch
    rw [lookup] at hlk
    by_cases hk : k = A
    · subst hk
      rw [if_pos rfl] at hlk
      injection hlk with hlk
      subst hlk
      have hnil : tl.filter (fun q => decide (q.1 < k)) = [] := by
        rw [List.filter_eq_nil_iff]
        intro q hq
        have hkq := hpw.1 q hq
        simp only [decide_eq_true_eq]
        omega
      rw [List.filter_cons, if_neg (by simp), hnil]
      exact hch.1
    · rw [if_neg hk] at hlk
      by_cases hlt : k < A
      · rw [List.filter_cons, if_pos (by simpa using hlt)]
        simp only [lastOut]
        exact ih c0.out hpw.2 hch.2 hlk
      · exfalso
        exact hlt (hpw.1 (A, c) (lookup_some_mem tl A c hlk))

/-- When the fresh boundary at `range_start` is a no-op, the state prevailing
strictly left of `range_start` is already equal-in-effect to the target
state. -/
theorem noopA_equiv (t : Tree) (A : Nat) (σ : IntervalState)
    (hpw : List.Pairwise (fun p q : Nat × IntervalChange => p.1 < q.1) t)
    (hch : chainFrom relEmpty t = true)
    (hnA : stateEquiv (nodeAIn t A) σ = true) :
    stateEquiv (lastOut relEmpty (t.filter fun q => decide (q.1 < A))) σ = true := by
  unfold nodeAIn at hnA
  cases hl : lookup t A with
  | none =>
    rw [hl] at hnA
    have hne := lookup_none_forall t A hl
    have hfe : t.filter (fun q => decide (q.1 ≤ A)) =
        t.filter (fun q => decide (q.1 < A)) := by
      apply List.filter_congr
      intro q hq
      have h1 := hne q hq
      exact decide_eq_decide.mpr (by omega)
    unfold prevailingAt at hnA
    rw [hfe] at hnA
    exact hnA
  | some c =>
    rw [hl] at hnA
    exact stateEquiv_trans (chainFrom_lookup A c t relEmpty hpw hch hl) hnA

/-- Core idempotence of the apply algorithm: re-applying the same target
state to the same range leaves the once-rewritten tree unchanged and yields
the all-zero rollup. -/
theorem apply_idem (t : Tree) (A B : Nat) (σ : IntervalState) (hAB : A < B)
    (hpw : List.Pairwise (fun p q : Nat × IntervalChange => p.1 < q.1) t)
    (hch : chainFrom relEmpty t = true) :
    applyTree (applyTree t A B σ) A B σ = applyTree t A B σ ∧
    applyDiff (applyTree t A B σ) A B σ = SummaryDiff.new := by
  set L := t.filter (fun q => decide (q.1 < A)) with hLdef
  set R := t.filter (fun q => decide (B < q.1)) with hRdef
  set nA := IntervalChange.mk (nodeAIn t A) σ with hnAdef
  set nB := IntervalChange.mk σ (prevailingAt t B) with hnBdef
  set pa := if nA.is_noop then ([] : Tree) else [(A, nA)] with hpadef
  set pb := if nB.is_noop then ([] : Tree) else [(B, nB)] with hpbdef
  have ht' : applyTree t A B σ = L ++ pa ++ pb ++ R := rfl
  rw [ht']
  have hLmem : ∀ q ∈ L, q.1 < A := by
    intro q hq
    rw [hLdef] at hq
    exact of_decide_eq_true (List.mem_filter.mp hq).2
  have hRmem : ∀ q ∈ R, B < q.1 := by
    intro q hq
    rw [hRdef] at hq
    exact of_decide_eq_true (List.mem_filter.mp hq).2
  have hpamem : ∀ q ∈ pa, q.1 = A := by
    intro q hq
    rw [hpadef] at hq
    split at hq
    · simp at hq
    · rw [List.mem_singleton] at hq
      rw [hq]
  have hpbmem : ∀ q ∈ pb, q.1 = B := by
    intro q hq
    rw [hpbdef] at hq
    split at hq
    · simp at hq
    · rw [List.mem_singleton] at hq
      rw [hq]
  -- block-by-block filter computations
  have fLlt : L.filter (fun q => decide (q.1 < A)) = L :=
    List.filter_eq_self.mpr fun q hq => decide_eq_true (hLmem q hq)
  have fpalt : pa.filter (fun q => decide (q.1 < A)) = [] := by
    rw [List.filter_eq_nil_iff]
    intro q hq
    simp only [decide_eq_true_eq]
    have := hpamem q hq
    omega
  have fpblt : pb.filter (fun q => decide (q.1 < A)) = [] := by
    rw [List.filter_eq_nil_iff]
    intro q hq
    simp only [decide_eq_true_eq]
    have := hpbmem q hq
    omega
  have fRlt : R.filter (fun q => decide (q.1 < A)) = [] := by
    rw [List.filter_eq_nil_iff]
    intro q hq
    simp only [decide_eq_true_eq]
    have := hRmem q hq
    omega
  have hF1 : (L ++ pa ++ pb ++ R).filter (fun q => decide (q.1 < A)) = L := by
    simp only [List.filter_append, fLlt, fpalt, fpblt, fRlt, List.append_nil]
  have fLgt : L.filter (fun q => decide (B < q.1)) = [] := by
    rw [List.filter_eq_nil_iff]
    intro q hq
    simp only [decide_eq_true_eq]
    have := hLmem q hq
    omega
  have fpagt : pa.filter (fun q => decide (B < q.1)) = [] := by
    rw [List.filter_eq_nil_iff]
    intro q hq
    simp only [decide_eq_true_eq]
    have := hpamem q hq
    omega
  have fpbgt : pb.filter (fun q => decide (B < q.1)) = [] := by
    rw [List.filter_eq_nil_iff]
    intro q hq
    simp only [decide_eq_true_eq]
    have := hpbmem q hq
    omega
  have fRgt : R.filter (fun q => decide (B < q.1)) = R :=
    List.filter_eq_self.mpr fun q hq => decide_eq_true (hRmem q hq)
  have hF2 : (L ++ pa ++ pb ++ R).filter (fun q => decide (B < q.1)) = R := by
    simp only [List.filter_append, fLgt, fpagt, fpbgt, fRgt, List.nil_append]
  have hF3 : (L ++ pa ++ pb ++ R).filter
      (fun q => decide (A < q.1) && decide (q.1 < B)) = [] := by
    rw [List.filter_eq_nil_iff]
    intro q hq
    have hq' : q ∈ L ∨ q ∈ pa ∨ q ∈ pb ∨ q ∈ R := by
      simpa [List.mem_append, or_assoc] using hq
    simp only [Bool.and_eq_true, decide_eq_true_eq, not_and]
    intro h1 h2
    rcases hq' with h | h | h | h
    · have := hLmem q h; omega
    · have := hpamem q h; omega
    · have := hpbmem q h; omega
    · have := hRmem q h; omega
  have fLle : L.filter (fun q => decide (q.1 ≤ A)) = L :=
    List.filter_eq_self.mpr fun q hq => decide_eq_true (le_of_lt (hLmem q hq))
  have fpale : pa.filter (fun q => decide (q.1 ≤ A)) = pa :=
    List.filter_eq_self.mpr fun q hq => decide_eq_true (le_of_eq (hpamem q hq))
  have fpble : pb.filter (fun q => decide (q.1 ≤ A)) = [] := by
    rw [List.filter_eq_nil_iff]
    intro q hq
    simp only [decide_eq_true_eq]
    have := hpbmem q hq
    omega
  have fRle : R.filter (fun q => decide (q.1 ≤ A)) = [] := by
    rw [List.filter_eq_nil_iff]
    intro q hq
    simp only [decide_eq_true_eq]
    have := hRmem q hq
    omega
  have hF5 : (L ++ pa ++ pb ++ R).filter (fun q => decide (q.1 ≤ A)) = L ++ pa := by
    simp only [List.filter_append, fLle, fpale, fpble, fRle, List.append_nil]
  have fLleB : L.filter (fun q => decide (q.1 ≤ B)) = L :=
    List.filter_eq_self.mpr fun q hq => decide_eq_true (by have := hLmem q hq; omega)
  have fpaleB : pa.filter (fun q => decide (q.1 ≤ B)) = pa :=
    List.filter_eq_self.mpr fun q hq => decide_eq_true (by have := hpamem q hq; omega)
  have fpbleB : pb.filter (fun q => decide (q.1 ≤ B)) = pb :=
    List.filter_eq_self.mpr fun q hq => decide_eq_true (le_of_eq (hpbmem q hq))
  have fRleB : R.filter (fun q => decide (q.1 ≤ B)) = [] := by
    rw [List.filter_eq_nil_iff]
    intro q hq
    simp only [decide_eq_true_eq]
    have := hRmem q hq
    omega
  have hF6 : (L ++ pa ++ pb ++ R).filter (fun q => decide (q.1 ≤ B)) = L ++ pa ++ pb := by
    simp only [List.filter_append, fLleB, fpaleB, fpbleB, fRleB, List.append_nil]
  -- closest-at-or-before states of the once-applied tree
  have hPA : prevailingAt (L ++ pa ++ pb ++ R) A = lastOut (lastOut relEmpty L) pa := by
    unfold prevailingAt
    rw [hF5, lastOut_append]
  have hPB : prevailingAt (L ++ pa ++ pb ++ R) B =
      lastOut (lastOut (lastOut relEmpty L) pa) pb := by
    unfold prevailingAt
    rw [hF6, lastOut_append, lastOut_append]
  have hassoc : L ++ pa ++ pb ++ R = L ++ (pa ++ (pb ++ R)) := by
    simp [List.append_assoc]
  have hlkL : lookup L A = none :=
    lookup_eq_none L A fun q hq => ne_of_lt (hLmem q hq)
  have hlksplit : lookup (L ++ pa ++ pb ++ R) A = lookup (pa ++ (pb ++ R)) A := by
    rw [hassoc]
    exact lookup_append_none L hlkL
  cases hn : nA.is_noop with
  | false =>
    have hpa2 : pa = [(A, nA)] := by rw [hpadef, hn]; simp
    have hlkA : lookup (L ++ pa ++ pb ++ R) A = some nA := by
      rw [hlksplit, hpa2]
      show lookup ((A, nA) :: (pb ++ R)) A = some nA
      rw [lookup, if_pos rfl]
    have hmkA : IntervalChange.mk (nodeAIn (L ++ pa ++ pb ++ R) A) σ = nA := by
      unfold nodeAIn
      rw [hlkA]
    have hPA2 : prevailingAt (L ++ pa ++ pb ++ R) A = σ := by
      rw [hPA, hpa2]
      rfl
    have hs0 : stateEquiv (prevailingAt (L ++ pa ++ pb ++ R) A) σ = true := by
      rw [hPA2]
      exact stateEquiv_refl σ
    cases hb : nB.is_noop with
    | false =>
      have hpb2 : pb = [(B, nB)] := by rw [hpbdef, hb]; simp
      have hPB2 : prevailingAt (L ++ pa ++ pb ++ R) B = prevailingAt t B := by
        rw [hPB, hpb2]
        rfl
      have hmkB : IntervalChange.mk σ (prevailingAt (L ++ pa ++ pb ++ R) B) = nB := by
        rw [hPB2]
      constructor
      · show applyTree (L ++ pa ++ pb ++ R) A B σ = L ++ pa ++ pb ++ R
        unfold applyTree
        rw [hF1, hF2, hmkA, hmkB, ← hpadef, ← hpbdef]
      · show applyDiff (L ++ pa ++ pb ++ R) A B σ = SummaryDiff.new
        unfold applyDiff interior
        rw [hF3]
        simp only [segmentsFrom, subtractSegments]
        exact accum_cancel SummaryDiff.new _ σ _ hs0
    | true =>
      have hpb2 : pb = ([] : Tree) := by rw [hpbdef, hb]; simp
      have hPB2 : prevailingAt (L ++ pa ++ pb ++ R) B = σ := by
        rw [hPB, hpb2, hpa2]
        rfl
      have hmkBnoop : (IntervalChange.mk σ (prevailingAt (L ++ pa ++ pb ++ R) B)).is_noop
          = true := by
        rw [hPB2, is_noop_eq_stateEquiv]
        exact stateEquiv_refl σ
      constructor
      · show applyTree (L ++ pa ++ pb ++ R) A B σ = L ++ pa ++ pb ++ R
        unfold applyTree
        rw [hF1, hF2, hmkA, if_pos hmkBnoop, ← hpadef, hpb2]
      · show applyDiff (L ++ pa ++ pb ++ R) A B σ = SummaryDiff.new
        unfold applyDiff interior
        rw [hF3]
        simp only [segmentsFrom, subtractSegments]
        exact accum_cancel SummaryDiff.new _ σ _ hs0
  | true =>
    have hpa2 : pa = ([] : Tree) := by rw [hpadef, hn]; simp
    have hnoop : stateEquiv (nodeAIn t A) σ = true := by
      have := hn
      rw [hnAdef, is_noop_eq_stateEquiv] at this
      exact this
    have hKey : stateEquiv (lastOut relEmpty L) σ = true := by
      rw [hLdef]
      exact noopA_equiv t A σ hpw hch hnoop
    have hlkAnone : lookup (L ++ pa ++ pb ++ R) A = none := by
      rw [hlksplit, hpa2]
      show lookup (pb ++ R) A = none
      apply lookup_eq_none
      intro q hq
      rcases List.mem_append.mp hq with h | h
      · have := hpbmem q h; omega
      · have := hRmem q h; omega
    have hPA2 : prevailingAt (L ++ pa ++ pb ++ R) A = lastOut relEmpty L := by
      rw [hPA, hpa2]
      rfl
    have hnodeA : nodeAIn (L ++ pa ++ pb ++ R) A = lastOut relEmpty L := by
      unfold nodeAIn
      rw [hlkAnone, hPA2]
    have hmkAnoop : (IntervalChange.mk (nodeAIn (L ++ pa ++ pb ++ R) A) σ).is_noop
        = true := by
      rw [hnodeA, is_noop_eq_stateEquiv]
      exact hKey
    have hs0 : stateEquiv (prevailingAt (L ++ pa ++ pb ++ R) A) σ = true := by
      rw [hPA2]
      exact hKey
    cases hb : nB.is_noop with
    | false =>
      have hpb2 : pb = [(B, nB)] := by rw [hpbdef, hb]; simp
      have hPB2 : prevailingAt (L ++ pa ++ pb ++ R) B = prevailingAt t B := by
        rw [hPB, hpb2]
        rfl
      have hmkB : IntervalChange.mk σ (prevailingAt (L ++ pa ++ pb ++ R) B) = nB := by
        rw [hPB2]
      constructor
      · show applyTree (L ++ pa ++ pb ++ R) A B σ = L ++ pa ++ pb ++ R
        unfold applyTree
        rw [hF1, hF2, if_pos hmkAnoop, hmkB, ← hpbdef, hpa2]
      · show applyDiff (L ++ pa ++ pb ++ R) A B σ = SummaryDiff.new
        unfold applyDiff interior
        rw [hF3]
        simp only [segmentsFrom, subtractSegments]
        exact accum_cancel SummaryDiff.new _ σ _ hs0
    | true =>
      have hpb2 : pb = ([] : Tree) := by rw [hpbdef, hb]; simp
      have hPB2 : prevailingAt (L ++ pa ++ pb ++ R) B = lastOut relEmpty L := by
        rw [hPB, hpb2, hpa2]
        rfl
      have hmkBnoop : (IntervalChange.mk σ (prevailingAt (L ++ pa ++ pb ++ R) B)).is_noop
          = true := by
        rw [hPB2, is_noop_eq_stateEquiv]
        exact stateEquiv_symm hKey
      constructor
      · show applyTree (L ++ pa ++ pb ++ R) A B σ = L ++ pa ++ pb ++ R
        unfold applyTree
        rw [hF1, hF2, if_pos hmkAnoop, if_pos hmkBnoop, hpa2, hpb2]
      · show applyDiff (L ++ pa ++ pb ++ R) A B σ = SummaryDiff.new
        unfold applyDiff interior
        rw [hF3]
        simp only [segmentsFrom, subtractSegments]
        exact accum_cancel SummaryDiff.new _ σ _ hs0

/-- C2: `register_mapping` is idempotent.  On any tree satisfying the spec's
tree invariants, if registering `[A, B)` with a given state and attribution
succeeded once, registering it again with identical arguments returns the
all-zero `SummaryDiff` and leaves the tree exactly as it was after the first
call. -/
theorem register_mapping_idempotent (t : Tree) (A B : Nat) (state : StateType)
    (metadata : Metadata) (d1 : SummaryDiff) (t1 : Tree)
    (hwf : TreeWF t) (hAB : A < B)
    (h1 : register_mapping t A B state metadata = .ok (d1, t1)) :
    register_mapping t1 A B state metadata = .ok (SummaryDiff.new, t1) := by
  obtain ⟨hpw, hch⟩ := hwf
  unfold register_mapping at h1 ⊢
  rw [if_pos hAB] at h1 ⊢
  injection h1 with h1
  injection h1 with hd ht
  subst ht
  obtain ⟨g1, g2⟩ := apply_idem t A B
    (IntervalState.make state (storedMetadata state metadata)) hAB hpw hch
  rw [g1, g2]

/-- Witness for C2: registering `[0, 10)` as Reserved twice from the empty
tree — the second call returns the zero rollup and the same two-node tree. -/
theorem register_mapping_idempotent_witness :
    register_mapping sampleTree 0 10 .Reserved ⟨1, 2⟩ = .ok (SummaryDiff.new, sampleTree) :=
  register_mapping_idempotent [] 0 10 .Reserved ⟨1, 2⟩ sampleDiff sampleTree
    ⟨List.Pairwise.nil, rfl⟩ (by norm_num) (by rfl)

end VMATree
